import Mathlib

/-!
Verification of the GoDoc2Anki repository: a shallow embedding of the
HTMLTrees package (tree copy / filtered projection) and of the pipeline
stages in cmd/GoStdLib.go (download loop, HTML processor, note uploader),
with theorems checking the specification's claims against the code.
-/

namespace GoAnki

/-- Embeds `html.NodeType` from golang.org/x/net/html. -/
inductive NodeType where
  | errorNode
  | text
  | document
  | element
  | comment
  | doctype
  | raw
deriving DecidableEq, Repr

/-- Embeds `html.Attribute`: Namespace, Key, Val. -/
structure Attr where
  ns : String
  key : String
  val : String
deriving DecidableEq, Repr

mutual
/-- Embeds `html.Node` as a value tree: Type, DataAtom, Data, Namespace,
Attr, and the ordered child list (Parent/sibling pointers of the Go struct
are represented by the tree structure itself; the heap model further below
represents them explicitly for the aliasing claim). -/
inductive HNode where
  | mk : NodeType → Nat → String → String → List Attr → Forest → HNode

/-- Ordered list of sibling nodes (the FirstChild/NextSibling chain). -/
inductive Forest where
  | nil : Forest
  | cons : HNode → Forest → Forest
end

def HNode.ntype : HNode → NodeType
  | .mk ty _ _ _ _ _ => ty

def HNode.dataAtom : HNode → Nat
  | .mk _ da _ _ _ _ => da

def HNode.data : HNode → String
  | .mk _ _ d _ _ _ => d

def HNode.nspace : HNode → String
  | .mk _ _ _ ns _ _ => ns

def HNode.attr : HNode → List Attr
  | .mk _ _ _ _ a _ => a

def HNode.children : HNode → Forest
  | .mk _ _ _ _ _ f => f

/-- The top-level trees of a forest, as a list. -/
def toListF : Forest → List HNode
  | .nil => []
  | .cons t ts => t :: toListF ts

/-- Embeds `Copy` (pkg/HTMLTrees): flat copy of a node; all pointers nil
(children empty here), Attr copied into a fresh slice, and — exactly as in
the source — the Namespace field is NOT copied (it is left at its zero
value `""`). -/
def Copy : HNode → HNode
  | .mk ty da d _ a _ => .mk ty da d "" a .nil

/-- Embeds the child-copying loop of `rec` (pkg/HTMLTrees): walks the
sibling chain; a child is copied iff `sel c || c.Type == html.TextNode`,
and for a copied child the recursion continues into its children. -/
def projF (sel : HNode → Bool) : Forest → Forest
  | .nil => .nil
  | .cons (.mk ty da d ns a f) cs =>
      if sel (.mk ty da d ns a f) || decide (ty = NodeType.text) then
        .cons (.mk ty da d "" a (projF sel f)) (projF sel cs)
      else
        projF sel cs

/-- The copy `rec` builds for one selected node: flat copy (Namespace
cleared) plus the recursively projected children. -/
def copyNodeRec (sel : HNode → Bool) : HNode → HNode
  | .mk ty da d _ a f => .mk ty da d "" a (projF sel f)

/-- Embeds `DeepCopyFunc`: `newRoot := Copy(root)` then
`rec(root, newRoot, sel)`. -/
def DeepCopyFunc (root : HNode) (sel : HNode → Bool) : HNode :=
  copyNodeRec sel root

/-- Embeds `DeepCopy`: `DeepCopyFunc` with the always-true predicate. -/
def DeepCopy (root : HNode) : HNode :=
  DeepCopyFunc root (fun _ => true)

/-- Structural node equality (value-level stand-in for Go pointer
identity; used to model membership in the `cache` map of
`DeepCopySubtrees`). -/
def forestBeq : Forest → Forest → Bool
  | .nil, .nil => true
  | .cons (.mk ty da d ns a f) cs, .cons (.mk ty2 da2 d2 ns2 a2 f2) cs2 =>
      decide (ty = ty2) && decide (da = da2) && decide (d = d2) &&
      decide (ns = ns2) && decide (a = a2) && forestBeq f f2 && forestBeq cs cs2
  | _, _ => false

def nodeBeq (a b : HNode) : Bool :=
  forestBeq (.cons a .nil) (.cons b .nil)

/-- `occursInF n fs`: n is one of the nodes of one of the trees in `fs`.
Models membership in the seeded `cache` of `DeepCopySubtrees`, whose stack
loop inserts every node of every given subtree. -/
def occursInF (n : HNode) : Forest → Bool
  | .nil => false
  | .cons (.mk ty da d ns a f) cs =>
      nodeBeq n (.mk ty da d ns a f) || occursInF n f || occursInF n cs

/-- `lookupAnyF subs fs`: some tree in `fs` satisfies the `lookup` closure
of `DeepCopySubtrees` (node in cache, or some child satisfies lookup). -/
def lookupAnyF (subs : Forest) : Forest → Bool
  | .nil => false
  | .cons (.mk ty da d ns a f) cs =>
      occursInF (.mk ty da d ns a f) subs || lookupAnyF subs f || lookupAnyF subs cs

/-- Embeds the `lookup` closure of `DeepCopySubtrees`:
`lookup(n) = cache[n] || ∃ child c of n, lookup(c)` (the memoized false
entries only cut recomputation and do not change the result). -/
def lookupSubtrees (subs : Forest) (n : HNode) : Bool :=
  lookupAnyF subs (.cons n .nil)

/-- Embeds `DeepCopySubtrees`: deep copy keeping a node iff the `lookup`
closure accepts it (or it is a text node, via `rec`). -/
def DeepCopySubtrees (root : HNode) (subs : Forest) : HNode :=
  DeepCopyFunc root (lookupSubtrees subs)

/-- All nodes of all trees of a forest, in preorder. -/
def nodesOfF : Forest → List HNode
  | .nil => []
  | .cons (.mk ty da d ns a f) cs =>
      (HNode.mk ty da d ns a f) :: (nodesOfF f ++ nodesOfF cs)

/-- A node and all its descendants. -/
def nodesOf (n : HNode) : List HNode :=
  nodesOfF (.cons n .nil)

/-! ### Heap model of the copy routines

For the aliasing claim the Go pointer graph is made explicit: nodes live in
an arena addressed by index, and the Parent/FirstChild/LastChild/
PrevSibling/NextSibling pointers of `html.Node` are `Option Nat` addresses.
The Attr slice is embedded by value because `Copy` always allocates a fresh
backing array (`make` + `copy`) and the parser allocates one slice per
node, so no two nodes ever share one. String fields are immutable in Go
(assignment replaces the pointer), so they are values here as well. -/

structure HeapNode where
  ntype : NodeType
  dataAtom : Nat
  data : String
  nspace : String
  attr : List Attr
  parent : Option Nat
  firstChild : Option Nat
  lastChild : Option Nat
  prevSibling : Option Nat
  nextSibling : Option Nat
deriving DecidableEq, Repr

abbrev Heap := List HeapNode

/-- The addresses a heap node points at. -/
def nodeLinks (n : HeapNode) : List Nat :=
  [n.parent, n.firstChild, n.lastChild, n.prevSibling, n.nextSibling].filterMap id

/-- In-place field update of the node stored at address `x` (a Go pointer
write); out-of-range addresses leave the heap unchanged. -/
def updateAt (h : Heap) (x : Nat) (f : HeapNode → HeapNode) : Heap :=
  match h[x]? with
  | none => h
  | some n => h.set x (f n)

/-- Embeds `Copy` on the heap: allocate a fresh cell holding the source
node's Type, DataAtom, Data and a fresh Attr slice, with every pointer nil
and (as in the source) the Namespace field left at `""`. Returns the new
heap and the fresh address. -/
def copyAllocH (h : Heap) (a : Nat) : Heap × Nat :=
  match h[a]? with
  | none => (h, h.length)
  | some n =>
      (h ++ [{ ntype := n.ntype, dataAtom := n.dataAtom, data := n.data,
               nspace := "", attr := n.attr, parent := none, firstChild := none,
               lastChild := none, prevSibling := none, nextSibling := none }],
       h.length)

/-- Embeds the pointer wiring done by `rec` for one copied child `cur`:
`cur.Parent = cpy`; `if cpy.FirstChild == nil { cpy.FirstChild = cur }`;
`if prev != nil { cur.PrevSibling = prev; prev.NextSibling = cur }`. -/
def attachChild (h : Heap) (cpyA cur : Nat) (prev : Option Nat) : Heap :=
  let h2 := updateAt h cur (fun n => { n with parent := some cpyA })
  let h3 := match h2[cpyA]? with
            | some pn =>
                if pn.firstChild = none then
                  updateAt h2 cpyA (fun n => { n with firstChild := some cur })
                else h2
            | none => h2
  match prev with
  | some p =>
      updateAt (updateAt h3 cur (fun n => { n with prevSibling := some p })) p
        (fun n => { n with nextSibling := some cur })
  | none => h3

/-- Embeds `rec` on the heap. `c` is the loop variable walking the source
sibling chain, `cpyA` the copy being filled, `prev` the previously copied
sibling. Each loop iteration and each recursive descent consumes one unit
of fuel; exhausted fuel stops the traversal (every theorem below holds for
all fuel values). Pointer reads re-read the current heap exactly where the
Go code does. -/
def recH (fuel : Nat) (sel : Nat → Bool) (c : Option Nat) (cpyA : Nat)
    (prev : Option Nat) (h : Heap) : Heap :=
  match fuel with
  | 0 => h
  | fuel + 1 =>
    match c with
    | none => updateAt h cpyA (fun n => { n with lastChild := prev })
    | some ca =>
      match h[ca]? with
      | none => h
      | some cn =>
        if sel ca || decide (cn.ntype = NodeType.text) then
          let hc := copyAllocH h ca
          let h4 := attachChild hc.1 cpyA hc.2 prev
          let h5 := match h4[ca]? with
                    | some cn2 => recH fuel sel cn2.firstChild hc.2 none h4
                    | none => h4
          match h5[ca]? with
          | some cn3 => recH fuel sel cn3.nextSibling cpyA (some hc.2) h5
          | none => h5
        else
          recH fuel sel cn.nextSibling cpyA prev h

/-- Embeds `DeepCopyFunc` on the heap: `newRoot := Copy(root)` then
`rec(root, newRoot, sel)` starting from `root.FirstChild`. -/
def deepCopyFuncH (fuel : Nat) (h : Heap) (rootA : Nat) (sel : Nat → Bool) :
    Heap × Nat :=
  let hc := copyAllocH h rootA
  match hc.1[rootA]? with
  | none => hc
  | some rn => (recH fuel sel rn.firstChild hc.2 none hc.1, hc.2)

/-- Every link of every node at address `≥ N` stays at addresses `≥ N`. -/
def LinksAbove (N : Nat) (h : Heap) : Prop :=
  ∀ a n, N ≤ a → h[a]? = some n → ∀ b ∈ nodeLinks n, N ≤ b

/-- Pointer reachability in a heap: the addresses of the nodes of the tree
hanging off a root address. -/
inductive Reaches (h : Heap) : Nat → Nat → Prop where
  | refl (a : Nat) : Reaches h a a
  | step {a b c : Nat} {n : HeapNode} : Reaches h a b → h[b]? = some n →
      c ∈ nodeLinks n → Reaches h a c

/-! ### Pipeline model: Task, downloader, processor, uploader -/

/-- Embeds an `ankiconnect.Note` as built by `Task.AddNote`: fixed model
"Golang" and the three fields Identifier / Declaration / Implementation. -/
structure Note where
  deckName : String
  modelName : String
  identifier : String
  declaration : String
  implementation : String
deriving DecidableEq, Repr

/-- The structured error a task can carry (the `err error` field of
`Task`); the two ways `HtmlDownloader` can attach one. -/
inductive TaskErr where
  | fetchFailed (msg : String)
  | readFailed (msg : String)
deriving DecidableEq, Repr

/-- Embeds `Task` from cmd/GoStdLib.go. -/
structure GoTask where
  url : String
  deck : String
  htmlSrc : String
  notes : List Note
  err : Option TaskErr
deriving DecidableEq, Repr

/-- Embeds `NewTask`. -/
def NewTask (url deck : String) : GoTask :=
  { url := url, deck := deck, htmlSrc := "", notes := [], err := none }

/-- One HTTP round in `HtmlDownloader`, seen from the worker: the result
of `http.Get` plus, on status 200, the result of `io.ReadAll`. -/
inductive FetchOutcome where
  | netErr (msg : String)
  | rateLimited
  | readErr (msg : String)
  | okBody (body : String)
  | otherStatus (code : Nat)
deriving DecidableEq, Repr

/-- How the downloader loop leaves its current task: blocked waiting for
the next HTTP response, moved on to the next task after a success, or the
process was killed by `log.Fatal` on an unexpected status. -/
inductive LoopEnd where
  | blocked
  | nextTask (rest : List FetchOutcome)
  | fatal (code : Nat)
deriving DecidableEq, Repr

/-- Embeds the `Outer` loop of `HtmlDownloader` for one task, driven by
the list of HTTP outcomes: on a transport or read error the error is
attached to the (mutated, reused) task variable, the task is sent
downstream, and `continue` re-runs the loop on the SAME task; on 429 it
sleeps and retries without emitting; on 200 the body is attached, the
task is sent, and the worker takes the next task; any other status is
`log.Fatal`. Returns the emitted tasks in order. -/
def downloadLoop : List FetchOutcome → GoTask → (List GoTask × LoopEnd)
  | [], _ => ([], .blocked)
  | .netErr m :: os, t =>
      let t2 := { t with err := some (.fetchFailed m) }
      let r := downloadLoop os t2
      (t2 :: r.1, r.2)
  | .rateLimited :: os, t => downloadLoop os t
  | .readErr m :: os, t =>
      let t2 := { t with err := some (.readFailed m) }
      let r := downloadLoop os t2
      (t2 :: r.1, r.2)
  | .okBody b :: os, t => ([{ t with htmlSrc := b }], .nextTask os)
  | .otherStatus c :: _, _ => ([], .fatal c)

/-- Spec-side count of how often the downloader loop emits its current
task, given the outcome list: once per transport/read error it runs into,
plus once more if it then reaches a success; a 429 adds nothing, an
unexpected status kills the process before emitting. -/
def emissionCount : List FetchOutcome → Nat
  | [] => 0
  | .netErr _ :: os => 1 + emissionCount os
  | .readErr _ :: os => 1 + emissionCount os
  | .rateLimited :: os => emissionCount os
  | .okBody _ :: _ => 1
  | .otherStatus _ :: _ => 0

/-- Embeds the body of the `HtmlProcessor` task loop: the payload is
parsed and the whole selector-driven extraction chain runs on it
(abstracted here as `extract`, since the CSS selector engine is an
external collaborator), appending one note per found declaration to
`task.notes`; the loop body never reads or writes `task.err`, and the task
is then forwarded. -/
def processTask (extract : String → List Note) (t : GoTask) : GoTask :=
  { t with notes := t.notes ++ extract t.htmlSrc }

/-- Embeds the function-category consistency check of `HtmlProcessor`:
`functions` and `func_headers` are the two selector results; a length
mismatch is `log.Fatalf` (modelled as `Except.error`), otherwise the two
lists are paired index by index. -/
def pairFunctions (functions funcHeaders : List HNode) :
    Except String (List (HNode × HNode)) :=
  if funcHeaders.length ≠ functions.length then
    .error "HTMLProcessor::unexpected_amount_of_func_headers"
  else
    .ok (functions.zip funcHeaders)

/-- Embeds the type-category consistency check of `HtmlProcessor`, same
shape as the function one. -/
def pairTypes (types typeHeaders : List HNode) :
    Except String (List (HNode × HNode)) :=
  if typeHeaders.length ≠ types.length then
    .error "HTMLProcessor::unexpected_amount_of_type_headers"
  else
    .ok (types.zip typeHeaders)

/-- Embeds the deck-handling loop of `NoteUploader`: `decks` is the single
snapshot fetched by `client.Decks.GetAll()` at startup; for each task, if
the snapshot does not contain the task's deck, `client.Decks.Create` is
called. The snapshot is NEVER extended after a creation — exactly as in
the source. Returns the names passed to `Create`, in order. -/
def deckCreations (decks : List String) : List GoTask → List String
  | [] => []
  | t :: ts =>
      if decks.contains t.deck then deckCreations decks ts
      else t.deck :: deckCreations decks ts

/-! ### Link normalization (href rewriting) -/

/-- One inspection step of the attribute loop in `HtmlProcessor`'s Modify
closure at index `i`: if the attribute exists and its key is "href", try
to resolve it (`url.Parse` + `base.ResolveReference`, abstracted as
`resolve`); on success overwrite the value, on failure leave the attribute
unchanged. -/
def hrefStep (resolve : String → Option String) (attrs : List Attr) (i : Nat) :
    List Attr :=
  if h : i < attrs.length then
    if (attrs.get ⟨i, h⟩).key = "href" then
      match resolve (attrs.get ⟨i, h⟩).val with
      | some v => attrs.set i { attrs.get ⟨i, h⟩ with val := v }
      | none => attrs
    else attrs
  else attrs

/-- Embeds the attribute loop of the Modify closure:
`for i := 0; i < len(node.Attr); i++ { if ... ; i++ }` — note the loop
body contains a second `i++`, so the index advances by TWO per iteration.
Fuel counts remaining iterations; since `i` grows by 2 each round and the
length never changes, `attrs.length` units of fuel always suffice. -/
def hrefLoopFuel : Nat → (String → Option String) → List Attr → Nat → List Attr
  | 0, _, attrs, _ => attrs
  | fuel + 1, resolve, attrs, i =>
      if i < attrs.length then
        hrefLoopFuel fuel resolve (hrefStep resolve attrs i) (i + 2)
      else attrs

/-- The whole attribute loop on one node, started at `i = 0`. -/
def resolveHrefs (resolve : String → Option String) (attrs : List Attr) :
    List Attr :=
  hrefLoopFuel attrs.length resolve attrs 0

/-- Embeds `Modify` specialised to the href closure (the closure touches
only the node's own Attr slice): runs the attribute loop on every node of
the forest. -/
def modifyAttrsF (g : List Attr → List Attr) : Forest → Forest
  | .nil => .nil
  | .cons (.mk ty da d ns a f) cs =>
      .cons (.mk ty da d ns (g a) (modifyAttrsF g f)) (modifyAttrsF g cs)

/-- Link normalization of a whole document: `HTMLTrees.Modify(root, f)`
with the href-resolving closure `f`. -/
def linkNormalize (resolve : String → Option String) : HNode → HNode
  | .mk ty da d ns a f =>
      .mk ty da d ns (resolveHrefs resolve a) (modifyAttrsF (resolveHrefs resolve) f)

/-! ### Trailing-paragraph collection -/

/-- Embeds the body of the sibling walk
`for c := v.NextSibling.NextSibling; c != nil && c.Data == "p";
c = c.NextSibling.NextSibling`, given the current node `c` and the list of
siblings after it. Dereferencing a nil `NextSibling` (to take its own
`NextSibling`) is the runtime fault, modelled as `Except.error`. -/
def goCollect : HNode → List HNode → Except Unit (List HNode)
  | c, rest =>
    if c.data = "p" then
      match rest with
      | [] => .error ()
      | [_] => .ok [c]
      | _ :: c2 :: rest2 => (goCollect c2 rest2).map (fun l => c :: l)
    else .ok []

/-- The sibling walk as started by `HtmlProcessor` for a matched variable
or constant declaration block, given the list of siblings strictly after
the block: `v.NextSibling.NextSibling` faults at once when the block has
no next sibling, yields no paragraph when the next sibling is the last
one, and otherwise starts `goCollect` two siblings further. -/
def collectTrailingParagraphs : List HNode → Except Unit (List HNode)
  | [] => .error ()
  | [_] => .ok []
  | _ :: c :: rest => goCollect c rest

/-- Spec-side fault characterization for the walk: starting at `c` with
`rest` after it, the walk dereferences nil iff it is at a paragraph that
has no next sibling (and otherwise steps two further). -/
def faultsAfter : HNode → List HNode → Bool
  | c, rest =>
    decide (c.data = "p") &&
      (match rest with
       | [] => true
       | [_] => false
       | _ :: c2 :: rest2 => faultsAfter c2 rest2)

/-! ### Spec-side definitions used for comparison -/

/-- Some node of the forest satisfies `sel`. -/
def descRelevantF (sel : HNode → Bool) : Forest → Bool
  | .nil => false
  | .cons (.mk ty da d ns a f) cs =>
      sel (.mk ty da d ns a f) || descRelevantF sel f || descRelevantF sel cs

/-- The spec's inclusion condition (§4.1, claim C1), following its words:
a node's copy is included under its already-included parent iff
relevance(node) is true, OR node is a text-type child, OR some descendant
of node is relevant. -/
def specIncluded (sel : HNode → Bool) (c : HNode) : Bool :=
  sel c || decide (c.ntype = NodeType.text) || descRelevantF sel c.children

/-- The spec's description of an all-false projection result, following
its words for the amended claim C2: only text-type nodes are retained
(recursively), each flat-copied exactly as `Copy` does. -/
def keepTextOnly : Forest → Forest
  | .nil => .nil
  | .cons (.mk ty da d _ a f) cs =>
      if decide (ty = NodeType.text) then
        .cons (.mk ty da d "" a (keepTextOnly f)) (keepTextOnly cs)
      else keepTextOnly cs

/-- Content identity in the respects claim C3 lists — tag/type, attribute
list (keys, values, duplicates, order), text content and child order —
ignoring only the Namespace field, which the claim does not mention. -/
def contentEqF : Forest → Forest → Bool
  | .nil, .nil => true
  | .cons (.mk ty da d _ a f) cs, .cons (.mk ty2 da2 d2 _ a2 f2) cs2 =>
      decide (ty = ty2) && decide (da = da2) && decide (d = d2) &&
      decide (a = a2) && contentEqF f f2 && contentEqF cs cs2
  | _, _ => false

/-- Content identity of two nodes (same respects as `contentEqF`). -/
def contentEq (a b : HNode) : Bool :=
  contentEqF (.cons a .nil) (.cons b .nil)

/-- The spec's description of the all-false projection result: a copy of
the root (Namespace cleared by `Copy`) whose subtree retains exactly the
text-type nodes. -/
def specAllFalseResult : HNode → HNode
  | .mk ty da d _ a f => .mk ty da d "" a (keepTextOnly f)

/-! ### Concrete inputs used by counterexamples and witnesses -/

/-- C1 counterexample tree: a relevant node `b` below a rejected non-text
node `a`. -/
def c1NodeB : HNode := .mk .element 0 "b" "" [] .nil

def c1NodeA : HNode := .mk .element 0 "a" "" [] (.cons c1NodeB .nil)

def c1Tree : HNode := .mk .element 0 "root" "" [] (.cons c1NodeA .nil)

def c1Sel : HNode → Bool := fun n => decide (n.data = "b")

/-- C2 counterexample tree: a root whose only child is a text node. -/
def c2Tree : HNode :=
  .mk .element 0 "root" "" [] (.cons (.mk .text 0 "hello" "" [] .nil) .nil)

/-- C4 counterexample: an extraction function that finds one declaration
in the given payload. -/
def c4Extract : String → List Note :=
  fun s => if s = "<html>decl</html>"
           then [{ deckName := "d", modelName := "Golang", identifier := "f",
                   declaration := "b", implementation := "" }]
           else []

/-- C4 counterexample: a task that reaches the processor already carrying
a fetch error AND a payload — exactly what `downloadLoop` emits on its
second emission after a read error followed by a successful retry. -/
def c4Task : GoTask :=
  { NewTask "https://pkg.go.dev/fmt" "Golang::std::fmt" with
    htmlSrc := "<html>decl</html>", err := some (.readFailed "io") }

/-- C5: a resolver that always succeeds (absolute form of any reference). -/
def c5Resolve : String → Option String := fun _ => some "https://pkg.go.dev/abs"

def c5Href : Attr := { ns := "", key := "href", val := "rel" }

/-- C5 failing input: an attribute list whose href sits at odd index 1. -/
def c5Attrs : List Attr := [{ ns := "", key := "class", val := "x" }, c5Href]

def c7Task : GoTask := NewTask "https://pkg.go.dev/io" "Golang::std::io"

def c8Task : GoTask := NewTask "https://pkg.go.dev/fmt" "Golang::std::fmt"

/-- C9 witness heap: one root node with no children. -/
def c9Heap : Heap :=
  [{ ntype := .element, dataAtom := 0, data := "root", nspace := "", attr := [],
     parent := none, firstChild := none, lastChild := none, prevSibling := none,
     nextSibling := none }]

/-- C9 witness: an arbitrary node value written into the projection. -/
def c9Mutation : HeapNode :=
  { ntype := .text, dataAtom := 0, data := "overwritten", nspace := "", attr := [],
    parent := none, firstChild := none, lastChild := none, prevSibling := none,
    nextSibling := none }

/-! ## Theorems -/

/-! ### Projection engine: inclusion characterization (C1, C2, C3) -/

/-- `rec` copies, among the children of a copied node, exactly those
accepted by the predicate or of text type (in order), and nothing else:
the projected child list is a filter-then-copy of the source child list. -/
theorem projF_filter_map (sel : HNode → Bool) :
    ∀ fs, toListF (projF sel fs) =
      ((toListF fs).filter (fun c => sel c || decide (c.ntype = NodeType.text))).map
        (copyNodeRec sel)
  | .nil => rfl
  | .cons (.mk ty da d ns a f) cs => by
      have ih := projF_filter_map sel cs
      cases h : sel (.mk ty da d ns a f) || decide (ty = NodeType.text) with
      | true =>
          simp only [projF, h, if_true, toListF, List.filter_cons, HNode.ntype, h,
            List.map_cons, copyNodeRec, ih]
      | false =>
          simp only [projF, h, if_false, toListF, List.filter_cons, HNode.ntype, h,
            List.map_cons, copyNodeRec, ih, Bool.false_eq_true]

/-- The `lookup` closure of `DeepCopySubtrees` accepts a node iff the node
itself or one of its descendants is a node of one of the designated
subtrees. -/
theorem lookupAnyF_eq (subs : Forest) :
    ∀ fs, lookupAnyF subs fs = (nodesOfF fs).any (fun d => occursInF d subs)
  | .nil => rfl
  | .cons (.mk ty da d ns a f) cs => by
      have ih1 := lookupAnyF_eq subs f
      have ih2 := lookupAnyF_eq subs cs
      simp only [lookupAnyF, nodesOfF, List.any_cons, List.any_append, ih1, ih2,
        Bool.or_assoc]

/-- The all-false projection keeps exactly the text-type nodes. -/
theorem projF_false_eq_keepTextOnly :
    ∀ fs, projF (fun _ => false) fs = keepTextOnly fs
  | .nil => rfl
  | .cons (.mk ty da d ns a f) cs => by
      have ih1 := projF_false_eq_keepTextOnly f
      have ih2 := projF_false_eq_keepTextOnly cs
      simp only [projF, keepTextOnly, Bool.false_or, ih1, ih2]

/-- The all-true projection is content-identical to the source forest. -/
theorem contentEqF_projF_true :
    ∀ fs, contentEqF (projF (fun _ => true) fs) fs = true
  | .nil => rfl
  | .cons (.mk ty da d ns a f) cs => by
      have ih1 := contentEqF_projF_true f
      have ih2 := contentEqF_projF_true cs
      simp [projF, contentEqF, ih1, ih2]

/-- C1 counterexample: in predicate mode the claim's inclusion rule fails.
In the concrete tree `root → a → b` with the predicate accepting exactly
`b`, the spec's condition includes `a` (a descendant is relevant), but
`DeepCopyFunc` omits `a` — the projected root has no children at all. -/
theorem predicate_mode_descendant_not_included :
    specIncluded c1Sel c1NodeA = true ∧
      toListF (DeepCopyFunc c1Tree c1Sel).children = [] :=
  ⟨by decide, rfl⟩

/-- C1 (amended): a node's copy is included under its already-included
parent iff the effective predicate accepts it or it is a text-type child;
descendants never rescue a rejected non-text node in predicate mode. In
designated-set mode (`DeepCopySubtrees`) the effective predicate is the
`lookup` closure, which accepts a node iff the node itself or some
descendant is a node of a designated subtree — so there (and only there)
the spec's descendant condition holds, routed through the same `rec`. -/
theorem projection_inclusion_characterization :
    (∀ (sel : HNode → Bool) (fs : Forest),
        toListF (projF sel fs) =
          ((toListF fs).filter (fun c => sel c || decide (c.ntype = NodeType.text))).map
            (copyNodeRec sel)) ∧
    (∀ (subs : Forest) (n : HNode),
        lookupSubtrees subs n = (nodesOf n).any (fun d => occursInF d subs)) ∧
    (∀ (root : HNode) (subs : Forest),
        DeepCopySubtrees root subs = DeepCopyFunc root (lookupSubtrees subs)) :=
  ⟨fun sel fs => projF_filter_map sel fs,
   fun subs n => lookupAnyF_eq subs (.cons n .nil),
   fun _ _ => rfl⟩

/-- C2 counterexample: projecting a root whose only child is a text node
with the all-false predicate yields a root copy with one child (the text
node is copied unconditionally by `rec`), not a childless root. -/
theorem all_false_predicate_keeps_text_child :
    (toListF (DeepCopyFunc c2Tree (fun _ => false)).children).length = 1 :=
  rfl

/-- C2 (amended): projecting with a predicate that accepts no node is
total and yields a copy of the root retaining exactly the text-type nodes
of the source (recursively); in particular the result is a childless root
iff the root has no text-type children. -/
theorem all_false_projection_keeps_exactly_text :
    ∀ t : HNode, DeepCopyFunc t (fun _ => false) = specAllFalseResult t := by
  intro t
  cases t with
  | mk ty da d ns a f =>
      simp only [DeepCopyFunc, copyNodeRec, specAllFalseResult,
        projF_false_eq_keepTextOnly]

/-- C3: projecting with a predicate that accepts every node yields a full
structural clone, identical to the source in node types, tags and text
(`Data`, `DataAtom`), attribute lists (keys, values, duplicates, order)
and child order. (The only field not reproduced is `Namespace`, which
`Copy` leaves at its zero value and which the claim does not list.) -/
theorem deepCopy_content_identical : ∀ t : HNode, contentEq (DeepCopy t) t = true := by
  intro t
  cases t with
  | mk ty da d ns a f =>
      have h := contentEqF_projF_true (.cons (.mk ty da d ns a f) .nil)
      simpa only [projF, Bool.true_or, if_true, DeepCopy, DeepCopyFunc,
        copyNodeRec, contentEq] using h

/-! ### Processor stage (C4, C5, C6) -/

/-- C4 (amended): `HtmlProcessor` never inspects the task's error. For
EVERY task — an errored one included — extraction runs on the payload and
its notes are appended, while the error (and every other field) is
forwarded unchanged. -/
theorem processor_forwards_error_and_always_extracts :
    ∀ (extract : String → List Note) (t : GoTask),
      (processTask extract t).err = t.err ∧
      (processTask extract t).notes = t.notes ++ extract t.htmlSrc ∧
      (processTask extract t).url = t.url ∧
      (processTask extract t).deck = t.deck ∧
      (processTask extract t).htmlSrc = t.htmlSrc :=
  fun _ _ => ⟨rfl, rfl, rfl, rfl, rfl⟩

/-- C4 counterexample: a task that reaches the processor with a fetch
error attached is NOT skipped. `c4Task` carries both an error and a
payload — the downloader really emits it (second emission after a read
error and a successful retry) — and the processor extracts a card from it
while forwarding the error unchanged. -/
theorem processor_extracts_despite_error :
    c4Task.err = some (TaskErr.readFailed "io") ∧
    (downloadLoop [FetchOutcome.readErr "io", FetchOutcome.okBody "<html>decl</html>"]
        (NewTask "https://pkg.go.dev/fmt" "Golang::std::fmt")).1 =
      [{ c4Task with htmlSrc := "" }, c4Task] ∧
    (processTask c4Extract c4Task).notes.length = 1 ∧
    (processTask c4Extract c4Task).err = c4Task.err :=
  ⟨rfl, rfl, by decide, rfl⟩

/-- C5: the attribute loop of the href-rewriting closure carries a stray
second `i++` in its body, so only even-indexed attributes are inspected.
At the failing input (href at index 1, resolvable) the list is returned
unchanged; the same href at index 0 IS rewritten, and a resolution failure
at index 0 is tolerated (attribute left unchanged). -/
theorem href_rewrite_skips_odd_indices :
    resolveHrefs c5Resolve c5Attrs = c5Attrs ∧
    linkNormalize c5Resolve (.mk .element 0 "a" "" c5Attrs .nil) =
      .mk .element 0 "a" "" c5Attrs .nil ∧
    resolveHrefs c5Resolve [c5Href] = [{ c5Href with val := "https://pkg.go.dev/abs" }] ∧
    resolveHrefs (fun _ => none) [c5Href] = [c5Href] :=
  ⟨rfl, rfl, rfl, rfl⟩

/-- C6: for the function and type categories, the extraction is fatal
exactly when the header count differs from the container count, and with
equal counts the two selector results are paired index by index (zip). -/
theorem category_count_mismatch_fatal :
    ∀ (functions funcHeaders types typeHeaders : List HNode),
      ((pairFunctions functions funcHeaders).isOk =
        decide (funcHeaders.length = functions.length)) ∧
      (funcHeaders.length = functions.length →
        pairFunctions functions funcHeaders = .ok (functions.zip funcHeaders)) ∧
      ((pairTypes types typeHeaders).isOk =
        decide (typeHeaders.length = types.length)) ∧
      (typeHeaders.length = types.length →
        pairTypes types typeHeaders = .ok (types.zip typeHeaders)) := by
  intro fs hs ts ths
  refine ⟨?_, fun h => by simp [pairFunctions, h], ?_, fun h => by simp [pairTypes, h]⟩
  · by_cases h : hs.length = fs.length <;> simp [pairFunctions, h, Except.isOk, Except.toBool]
  · by_cases h : ths.length = ts.length <;> simp [pairTypes, h, Except.isOk, Except.toBool]

/-- C6 witness: with one function container and one header the check
passes and pairs them; with a container and no header (and the dual for
types) the check is fatal. -/
theorem category_count_mismatch_fatal_witness :
    pairFunctions [HNode.mk .element 0 "fdiv" "" [] .nil]
        [HNode.mk .element 0 "fhead" "" [] .nil] =
      Except.ok [(HNode.mk .element 0 "fdiv" "" [] .nil,
                  HNode.mk .element 0 "fhead" "" [] .nil)] ∧
    (pairFunctions [HNode.mk .element 0 "fdiv" "" [] .nil] []).isOk = false ∧
    (pairTypes [] [HNode.mk .element 0 "thead" "" [] .nil]).isOk = false := by
  refine ⟨(category_count_mismatch_fatal _ _ [] []).2.1 rfl, ?_, ?_⟩
  · have h := (category_count_mismatch_fatal
      [HNode.mk .element 0 "fdiv" "" [] .nil] [] [] []).1
    simpa using h
  · have h := (category_count_mismatch_fatal [] []
      [] [HNode.mk .element 0 "thead" "" [] .nil]).2.2.1
    simpa using h

/-! ### Downloader stage (C7) -/

/-- The number of tasks the downloader loop emits for its current task is
one per error outcome it runs into plus one for a reached success — not at
most one. -/
theorem downloadLoop_length :
    ∀ (os : List FetchOutcome) (t : GoTask),
      (downloadLoop os t).1.length = emissionCount os
  | [], _ => rfl
  | .netErr m :: os, t => by
      simp [downloadLoop, emissionCount, downloadLoop_length os, Nat.add_comm]
  | .rateLimited :: os, t => by
      simp [downloadLoop, emissionCount, downloadLoop_length os]
  | .readErr m :: os, t => by
      simp [downloadLoop, emissionCount, downloadLoop_length os, Nat.add_comm]
  | .okBody b :: os, t => rfl
  | .otherStatus c :: os, t => rfl

/-- C7 (amended): on an unrecoverable transport error the error is
attached to the task and the task IS forwarded — but the fetch is then
retried with the very same (still errored) task, so each further failure
emits it again and a reached success emits it once more. -/
theorem transport_error_emits_then_retries :
    (∀ (m : String) (os : List FetchOutcome) (t : GoTask),
        downloadLoop (FetchOutcome.netErr m :: os) t =
          ({ t with err := some (TaskErr.fetchFailed m) } ::
             (downloadLoop os { t with err := some (TaskErr.fetchFailed m) }).1,
           (downloadLoop os { t with err := some (TaskErr.fetchFailed m) }).2)) ∧
    (∀ (os : List FetchOutcome) (t : GoTask),
        (downloadLoop os t).1.length = emissionCount os) :=
  ⟨fun _ _ _ => rfl, downloadLoop_length⟩

/-- C7 counterexample: a transport error followed by a successful retry
emits the same task twice — and the second emission still carries the
stale error. -/
theorem transport_error_double_emission :
    ((downloadLoop [FetchOutcome.netErr "refused", FetchOutcome.okBody "<html>"]
        c7Task).1).length = 2 ∧
    ((downloadLoop [FetchOutcome.netErr "refused", FetchOutcome.okBody "<html>"]
        c7Task).1).map GoTask.err =
      [some (TaskErr.fetchFailed "refused"), some (TaskErr.fetchFailed "refused")] :=
  ⟨rfl, rfl⟩

/-! ### Uploader stage (C8) -/

/-- C8 (amended): the uploader attempts a creation once per TASK whose
deck is missing from the startup snapshot; the snapshot is never updated,
so repeated tasks naming the same absent deck each trigger a creation,
while decks present in the snapshot are never created. -/
theorem deck_creation_per_task_characterization :
    ∀ (decks : List String) (tasks : List GoTask),
      deckCreations decks tasks =
        (tasks.map GoTask.deck).filter (fun d => !(decks.contains d))
  | _, [] => rfl
  | decks, t :: ts => by
      cases h : decks.contains t.deck <;>
        simp [deckCreations, h, deck_creation_per_task_characterization decks ts,
          List.filter_cons]

/-- C8 counterexample: two tasks naming the same deck, absent from the
startup snapshot, trigger TWO creation attempts for that one name. -/
theorem duplicate_deck_creation_attempts :
    (deckCreations [] [c8Task, c8Task]).count "Golang::std::fmt" = 2 := by
  decide

/-! ### Trailing-paragraph collection (C10) -/

/-- The sibling walk succeeds iff it never hits a paragraph lacking a next
sibling: `goCollect` errors exactly when `faultsAfter` says the original
loop dereferences nil. -/
theorem goCollect_isOk :
    ∀ (c : HNode) (rest : List HNode),
      (goCollect c rest).isOk = !(faultsAfter c rest)
  | c, [] => by
      by_cases h : c.data = "p" <;> simp [goCollect, faultsAfter, h, Except.isOk, Except.toBool]
  | c, [x] => by
      by_cases h : c.data = "p" <;> simp [goCollect, faultsAfter, h, Except.isOk, Except.toBool]
  | c, x :: y :: rest => by
      by_cases h : c.data = "p"
      · have ih := goCollect_isOk y rest
        cases hg : goCollect y rest with
        | ok l =>
            rw [hg] at ih
            simp [goCollect, faultsAfter, h, hg, Except.map, Except.isOk, Except.toBool, ← ih]
        | error e =>
            rw [hg] at ih
            simp [goCollect, faultsAfter, h, hg, Except.map, Except.isOk, Except.toBool, ← ih]
      · simp [goCollect, faultsAfter, h, Except.isOk, Except.toBool]

/-- C10 (amended): collecting trailing paragraphs dereferences a nil node
iff the matched declaration block has no next sibling at all, or some
collected paragraph (reached at even offsets) has none; a next sibling
that is itself the last child is safe (the loop does not start), and
otherwise the walk steps two siblings at a time exactly as `goCollect`
characterizes. -/
theorem trailing_paragraph_collection_characterization :
    collectTrailingParagraphs [] = Except.error () ∧
    (∀ s : HNode, collectTrailingParagraphs [s] = Except.ok []) ∧
    (∀ (s c : HNode) (rest : List HNode),
        collectTrailingParagraphs (s :: c :: rest) = goCollect c rest) ∧
    (∀ (c : HNode) (rest : List HNode),
        (goCollect c rest).isOk = !(faultsAfter c rest)) :=
  ⟨rfl, fun _ => rfl, fun _ _ _ => rfl, goCollect_isOk⟩

/-- C10 counterexample: when a matched declaration block is the last child
of its parent (no next sibling), `v.NextSibling.NextSibling` dereferences
nil — the collection faults instead of returning safely. -/
theorem trailing_paragraph_nil_deref :
    collectTrailingParagraphs [] = Except.error () :=
  rfl

/-! ### Heap model: freshness of copies (C9) -/

theorem length_updateAt (h : Heap) (x : Nat) (f : HeapNode → HeapNode) :
    (updateAt h x f).length = h.length := by
  unfold updateAt
  split <;> simp [List.length_set]

theorem getElem?_updateAt_ne (h : Heap) (x : Nat) (f : HeapNode → HeapNode)
    (a : Nat) (hax : a ≠ x) : (updateAt h x f)[a]? = h[a]? := by
  unfold updateAt
  split
  · rfl
  · exact List.getElem?_set_ne (Ne.symm hax)

theorem copyAllocH_snd (h : Heap) (a : Nat) : (copyAllocH h a).2 = h.length := by
  unfold copyAllocH
  split <;> rfl

theorem length_le_copyAllocH (h : Heap) (a : Nat) :
    h.length ≤ (copyAllocH h a).1.length := by
  unfold copyAllocH
  split <;> simp

theorem getElem?_copyAllocH_lt (h : Heap) (a b : Nat) (hb : b < h.length) :
    (copyAllocH h a).1[b]? = h[b]? := by
  unfold copyAllocH
  split
  · rfl
  · simp [List.getElem?_append, hb]

theorem length_attachChild (h : Heap) (cpyA cur : Nat) (prev : Option Nat) :
    (attachChild h cpyA cur prev).length = h.length := by
  unfold attachChild
  cases prev <;> dsimp only <;> split
  all_goals try split
  all_goals simp [length_updateAt]

theorem getElem?_attachChild_lt (N : Nat) (h : Heap) (cpyA cur : Nat)
    (prev : Option Nat) (a : Nat) (hcpy : N ≤ cpyA) (hcur : N ≤ cur)
    (hprev : ∀ p, prev = some p → N ≤ p) (ha : a < N) :
    (attachChild h cpyA cur prev)[a]? = h[a]? := by
  have hacur : a ≠ cur := by omega
  have hacpy : a ≠ cpyA := by omega
  unfold attachChild
  cases prev with
  | none =>
      dsimp only
      split
      · split
        · rw [getElem?_updateAt_ne _ _ _ _ hacpy, getElem?_updateAt_ne _ _ _ _ hacur]
        · rw [getElem?_updateAt_ne _ _ _ _ hacur]
      · rw [getElem?_updateAt_ne _ _ _ _ hacur]
  | some p =>
      have hap : a ≠ p := by
        have := hprev p rfl
        omega
      dsimp only
      split
      · split
        · rw [getElem?_updateAt_ne _ _ _ _ hap, getElem?_updateAt_ne _ _ _ _ hacur,
            getElem?_updateAt_ne _ _ _ _ hacpy, getElem?_updateAt_ne _ _ _ _ hacur]
        · rw [getElem?_updateAt_ne _ _ _ _ hap, getElem?_updateAt_ne _ _ _ _ hacur,
            getElem?_updateAt_ne _ _ _ _ hacur]
      · rw [getElem?_updateAt_ne _ _ _ _ hap, getElem?_updateAt_ne _ _ _ _ hacur,
          getElem?_updateAt_ne _ _ _ _ hacur]

theorem length_le_recH :
    ∀ (fuel : Nat) (sel : Nat → Bool) (c : Option Nat) (cpyA : Nat)
      (prev : Option Nat) (h : Heap),
      h.length ≤ (recH fuel sel c cpyA prev h).length
  | 0, _, _, _, _, _ => Nat.le_refl _
  | fuel + 1, sel, none, cpyA, prev, h => by
      simp [recH, length_updateAt]
  | fuel + 1, sel, some ca, cpyA, prev, h => by
      simp only [recH]
      cases hx : h[ca]? with
      | none => exact Nat.le_refl _
      | some cn =>
          dsimp only
          by_cases hsel : (sel ca || decide (cn.ntype = NodeType.text)) = true
          · rw [if_pos hsel]
            have k1 : h.length ≤ (copyAllocH h ca).1.length := length_le_copyAllocH h ca
            have k2 : (attachChild (copyAllocH h ca).1 cpyA (copyAllocH h ca).2 prev).length
                = (copyAllocH h ca).1.length := length_attachChild _ _ _ _
            cases h4x : (attachChild (copyAllocH h ca).1 cpyA (copyAllocH h ca).2 prev)[ca]? with
            | none =>
                simp only [h4x]
                omega
            | some cn2 =>
                simp only [h4x]
                have k3 : (attachChild (copyAllocH h ca).1 cpyA (copyAllocH h ca).2 prev).length
                    ≤ (recH fuel sel cn2.firstChild (copyAllocH h ca).2 none
                        (attachChild (copyAllocH h ca).1 cpyA (copyAllocH h ca).2 prev)).length :=
                  length_le_recH fuel sel cn2.firstChild (copyAllocH h ca).2 none _
                cases h5x : (recH fuel sel cn2.firstChild (copyAllocH h ca).2 none
                    (attachChild (copyAllocH h ca).1 cpyA (copyAllocH h ca).2 prev))[ca]? with
                | none =>
                    simp only [h5x]
                    omega
                | some cn3 =>
                    simp only [h5x]
                    have k4 := length_le_recH fuel sel cn3.nextSibling cpyA
                      (some (copyAllocH h ca).2)
                      (recH fuel sel cn2.firstChild (copyAllocH h ca).2 none
                        (attachChild (copyAllocH h ca).1 cpyA (copyAllocH h ca).2 prev))
                    omega
          · rw [if_neg hsel]
            exact length_le_recH fuel sel cn.nextSibling cpyA prev h

/-- `rec` never touches a heap cell below the watermark `N` when the copy
target and the previous sibling lie at or above `N`: the source region of
the heap is preserved verbatim. -/
theorem getElem?_recH_lt :
    ∀ (fuel : Nat) (sel : Nat → Bool) (c : Option Nat) (cpyA : Nat)
      (prev : Option Nat) (h : Heap) (N a : Nat),
      N ≤ h.length → N ≤ cpyA → (∀ p, prev = some p → N ≤ p) → a < N →
      (recH fuel sel c cpyA prev h)[a]? = h[a]?
  | 0, _, _, _, _, _, _, _ => fun _ _ _ _ => rfl
  | fuel + 1, sel, none, cpyA, prev, h, N, a => fun _ hcpy _ ha => by
      simp only [recH]
      exact getElem?_updateAt_ne h cpyA _ a (by omega)
  | fuel + 1, sel, some ca, cpyA, prev, h, N, a => fun hN hcpy hprev ha => by
      simp only [recH]
      cases hx : h[ca]? with
      | none => rfl
      | some cn =>
          dsimp only
          by_cases hsel : (sel ca || decide (cn.ntype = NodeType.text)) = true
          · rw [if_pos hsel]
            have hcurN : N ≤ (copyAllocH h ca).2 := by
              rw [copyAllocH_snd]; omega
            have e1 : (copyAllocH h ca).1[a]? = h[a]? :=
              getElem?_copyAllocH_lt h ca a (by omega)
            have l1 : h.length ≤ (copyAllocH h ca).1.length := length_le_copyAllocH h ca
            set A := attachChild (copyAllocH h ca).1 cpyA (copyAllocH h ca).2 prev with hA
            have e2 : A[a]? = (copyAllocH h ca).1[a]? :=
              getElem?_attachChild_lt N _ cpyA _ prev a hcpy hcurN hprev ha
            have l2 : A.length = (copyAllocH h ca).1.length := length_attachChild _ _ _ _
            cases h4x : A[ca]? with
            | none =>
                simp only [h4x]
                rw [e2, e1]
            | some cn2 =>
                simp only [h4x]
                set R5 := recH fuel sel cn2.firstChild (copyAllocH h ca).2 none A with hR5
                have e3 : R5[a]? = A[a]? :=
                  getElem?_recH_lt fuel sel cn2.firstChild (copyAllocH h ca).2 none A N a
                    (by omega) hcurN (fun p hp => by cases hp) ha
                have l3 : A.length ≤ R5.length :=
                  length_le_recH fuel sel cn2.firstChild (copyAllocH h ca).2 none A
                cases h5x : R5[ca]? with
                | none =>
                    simp only [h5x]
                    rw [e3, e2, e1]
                | some cn3 =>
                    simp only [h5x]
                    have e4 : (recH fuel sel cn3.nextSibling cpyA (some (copyAllocH h ca).2) R5)[a]?
                        = R5[a]? :=
                      getElem?_recH_lt fuel sel cn3.nextSibling cpyA
                        (some (copyAllocH h ca).2) R5 N a (by omega) hcpy
                        (fun p hp => by cases hp; exact hcurN) ha
                    rw [e4, e3, e2, e1]
          · rw [if_neg hsel]
            exact getElem?_recH_lt fuel sel cn.nextSibling cpyA prev h N a hN hcpy hprev ha

/-- Vacuously, every link of the (empty) region at or above the heap's
current length stays in that region. -/
theorem linksAbove_init (h : Heap) : LinksAbove h.length h := by
  intro a n ha hget b _
  rw [List.getElem?_eq_none ha] at hget
  cases hget

/-- A pointer write whose new link targets lie at or above `N` preserves
the `LinksAbove N` invariant. -/
theorem linksAbove_updateAt (N : Nat) (h : Heap) (x : Nat)
    (f : HeapNode → HeapNode)
    (hf : ∀ n b, b ∈ nodeLinks (f n) → b ∈ nodeLinks n ∨ N ≤ b) :
    LinksAbove N h → LinksAbove N (updateAt h x f) := by
  intro hla a n ha hget b hb
  unfold updateAt at hget
  cases hx : h[x]? with
  | none => rw [hx] at hget; exact hla a n ha hget b hb
  | some m =>
      rw [hx] at hget
      by_cases hxa : x = a
      · subst hxa
        have hlt : x < h.length := by
          rcases Nat.lt_or_ge x h.length with h1 | h1
          · exact h1
          · rw [List.getElem?_eq_none h1] at hx; cases hx
        rw [List.getElem?_set_self hlt] at hget
        injection hget with hnm
        subst hnm
        rcases hf m b hb with hbm | hbN
        · exact hla x m ha hx b hbm
        · exact hbN
      · rw [List.getElem?_set_ne hxa] at hget
        exact hla a n ha hget b hb

theorem getElem?_snoc_cases {α : Type} (l : List α) (x : α) (i : Nat)
    (hi : l.length ≤ i) :
    (l ++ [x])[i]? = if i = l.length then some x else none := by
  rcases Nat.eq_or_lt_of_le hi with he | hl
  · rw [← he, if_pos rfl]
    exact List.getElem?_concat_length l x
  · rw [if_neg (by omega)]
    apply List.getElem?_eq_none
    simp
    omega

/-- `Copy` preserves the invariant: the fresh cell has no links at all. -/
theorem linksAbove_copyAllocH (N : Nat) (h : Heap) (a : Nat)
    (hla : LinksAbove N h) : LinksAbove N (copyAllocH h a).1 := by
  unfold copyAllocH
  cases hx : h[a]? with
  | none => exact hla
  | some n =>
      intro a2 m ha2 hget b hb
      dsimp only at hget
      rcases Nat.lt_or_ge a2 h.length with hlt | hge
      · rw [List.getElem?_append_left hlt] at hget
        exact hla a2 m ha2 hget b hb
      · rw [getElem?_snoc_cases _ _ _ hge] at hget
        by_cases he : a2 = h.length
        · rw [if_pos he] at hget
          injection hget with hnm
          subst hnm
          simp [nodeLinks] at hb
        · rw [if_neg he] at hget
          cases hget

theorem linksAbove_updateAt_parent (N : Nat) (h : Heap) (x v : Nat) (hv : N ≤ v)
    (hla : LinksAbove N h) :
    LinksAbove N (updateAt h x fun n => { n with parent := some v }) := by
  refine linksAbove_updateAt N h x _ ?_ hla
  intro n b hb
  simp [nodeLinks] at hb ⊢
  rcases hb with rfl | hb
  · right; exact hv
  · left; tauto

theorem linksAbove_updateAt_firstChild (N : Nat) (h : Heap) (x v : Nat) (hv : N ≤ v)
    (hla : LinksAbove N h) :
    LinksAbove N (updateAt h x fun n => { n with firstChild := some v }) := by
  refine linksAbove_updateAt N h x _ ?_ hla
  intro n b hb
  simp [nodeLinks] at hb ⊢
  rcases hb with hb | rfl | hb
  · left; tauto
  · right; exact hv
  · left; tauto

theorem linksAbove_updateAt_prevSibling (N : Nat) (h : Heap) (x v : Nat) (hv : N ≤ v)
    (hla : LinksAbove N h) :
    LinksAbove N (updateAt h x fun n => { n with prevSibling := some v }) := by
  refine linksAbove_updateAt N h x _ ?_ hla
  intro n b hb
  simp [nodeLinks] at hb ⊢
  rcases hb with hb | hb | hb | rfl | hb
  · left; tauto
  · left; tauto
  · left; tauto
  · right; exact hv
  · left; tauto

theorem linksAbove_updateAt_nextSibling (N : Nat) (h : Heap) (x v : Nat) (hv : N ≤ v)
    (hla : LinksAbove N h) :
    LinksAbove N (updateAt h x fun n => { n with nextSibling := some v }) := by
  refine linksAbove_updateAt N h x _ ?_ hla
  intro n b hb
  simp [nodeLinks] at hb ⊢
  rcases hb with hb | hb | hb | hb | rfl
  · left; tauto
  · left; tauto
  · left; tauto
  · left; tauto
  · right; exact hv

theorem linksAbove_updateAt_lastChild (N : Nat) (h : Heap) (x : Nat)
    (prev : Option Nat) (hprev : ∀ p, prev = some p → N ≤ p)
    (hla : LinksAbove N h) :
    LinksAbove N (updateAt h x fun n => { n with lastChild := prev }) := by
  refine linksAbove_updateAt N h x _ ?_ hla
  intro n b hb
  simp [nodeLinks] at hb ⊢
  rcases hb with hb | hb | hb | hb | hb
  · left; tauto
  · left; tauto
  · right; exact hprev b hb.symm
  · left; tauto
  · left; tauto

/-- The pointer wiring of `rec` links the fresh child only to addresses at
or above `N` (the copy parent, the fresh cell, the previous fresh
sibling), so the invariant is preserved. -/
theorem linksAbove_attachChild (N : Nat) (h : Heap) (cpyA cur : Nat)
    (prev : Option Nat) (hcpy : N ≤ cpyA) (hcur : N ≤ cur)
    (hprev : ∀ p, prev = some p → N ≤ p) (hla : LinksAbove N h) :
    LinksAbove N (attachChild h cpyA cur prev) := by
  have h2 : LinksAbove N (updateAt h cur fun n => { n with parent := some cpyA }) :=
    linksAbove_updateAt_parent N h cur cpyA hcpy hla
  unfold attachChild
  cases prev with
  | none =>
      dsimp only
      split
      · split
        · exact linksAbove_updateAt_firstChild N _ cpyA cur hcur h2
        · exact h2
      · exact h2
  | some p =>
      have hp : N ≤ p := hprev p rfl
      dsimp only
      split
      · split
        · exact linksAbove_updateAt_nextSibling N _ p cur hcur
            (linksAbove_updateAt_prevSibling N _ cur p hp
              (linksAbove_updateAt_firstChild N _ cpyA cur hcur h2))
        · exact linksAbove_updateAt_nextSibling N _ p cur hcur
            (linksAbove_updateAt_prevSibling N _ cur p hp h2)
      · exact linksAbove_updateAt_nextSibling N _ p cur hcur
          (linksAbove_updateAt_prevSibling N _ cur p hp h2)

/-- `rec` keeps every link of the fresh region inside the fresh region. -/
theorem linksAbove_recH :
    ∀ (fuel : Nat) (sel : Nat → Bool) (c : Option Nat) (cpyA : Nat)
      (prev : Option Nat) (h : Heap) (N : Nat),
      N ≤ h.length → N ≤ cpyA → (∀ p, prev = some p → N ≤ p) →
      LinksAbove N h → LinksAbove N (recH fuel sel c cpyA prev h)
  | 0, _, _, _, _, _, _ => fun _ _ _ hla => hla
  | fuel + 1, sel, none, cpyA, prev, h, N => fun _ _ hprev hla => by
      simp only [recH]
      exact linksAbove_updateAt_lastChild N h cpyA prev hprev hla
  | fuel + 1, sel, some ca, cpyA, prev, h, N => fun hN hcpy hprev hla => by
      simp only [recH]
      cases hx : h[ca]? with
      | none => exact hla
      | some cn =>
          dsimp only
          by_cases hsel : (sel ca || decide (cn.ntype = NodeType.text)) = true
          · rw [if_pos hsel]
            have hcurN : N ≤ (copyAllocH h ca).2 := by
              rw [copyAllocH_snd]; omega
            have l1 : h.length ≤ (copyAllocH h ca).1.length := length_le_copyAllocH h ca
            have hla1 : LinksAbove N (copyAllocH h ca).1 := linksAbove_copyAllocH N h ca hla
            set A := attachChild (copyAllocH h ca).1 cpyA (copyAllocH h ca).2 prev with hA
            have hlaA : LinksAbove N A :=
              linksAbove_attachChild N _ cpyA _ prev hcpy hcurN hprev hla1
            have l2 : A.length = (copyAllocH h ca).1.length := length_attachChild _ _ _ _
            cases h4x : A[ca]? with
            | none => simp only [h4x]; exact hlaA
            | some cn2 =>
                simp only [h4x]
                set R5 := recH fuel sel cn2.firstChild (copyAllocH h ca).2 none A with hR5
                have hlaR5 : LinksAbove N R5 :=
                  linksAbove_recH fuel sel cn2.firstChild (copyAllocH h ca).2 none A N
                    (by omega) hcurN (fun p hp => by cases hp) hlaA
                have l3 : A.length ≤ R5.length :=
                  length_le_recH fuel sel cn2.firstChild (copyAllocH h ca).2 none A
                cases h5x : R5[ca]? with
                | none => simp only [h5x]; exact hlaR5
                | some cn3 =>
                    simp only [h5x]
                    exact linksAbove_recH fuel sel cn3.nextSibling cpyA
                      (some (copyAllocH h ca).2) R5 N (by omega) hcpy
                      (fun p hp => by cases hp; exact hcurN) hlaR5
          · rw [if_neg hsel]
            exact linksAbove_recH fuel sel cn.nextSibling cpyA prev h N hN hcpy hprev hla

/-- In a heap whose region at or above `N` is link-closed, everything
reachable from an address at or above `N` stays at or above `N`. -/
theorem reaches_ge (N : Nat) (h : Heap) (hla : LinksAbove N h) (a b : Nat)
    (ha : N ≤ a) (hr : Reaches h a b) : N ≤ b := by
  induction hr with
  | refl => exact ha
  | step _ hget hmem ih => exact hla _ _ ih hget _ hmem

/-- The address `DeepCopyFunc` returns is the first fresh one. -/
theorem deepCopyFuncH_snd (fuel : Nat) (h : Heap) (rootA : Nat) (sel : Nat → Bool) :
    (deepCopyFuncH fuel h rootA sel).2 = h.length := by
  unfold deepCopyFuncH
  cases hx : (copyAllocH h rootA).1[rootA]? <;> simp only [hx] <;>
    exact copyAllocH_snd h rootA

/-- Building a projection leaves every pre-existing heap cell unchanged. -/
theorem getElem?_deepCopyFuncH_lt (fuel : Nat) (h : Heap) (rootA : Nat)
    (sel : Nat → Bool) (a : Nat) (ha : a < h.length) :
    (deepCopyFuncH fuel h rootA sel).1[a]? = h[a]? := by
  unfold deepCopyFuncH
  cases hx : (copyAllocH h rootA).1[rootA]? with
  | none =>
      simp only [hx]
      exact getElem?_copyAllocH_lt h rootA a ha
  | some rn =>
      simp only [hx]
      have e1 := getElem?_copyAllocH_lt h rootA a ha
      have l1 := length_le_copyAllocH h rootA
      have e2 := getElem?_recH_lt fuel sel rn.firstChild (copyAllocH h rootA).2 none
        (copyAllocH h rootA).1 h.length a l1
        (by rw [copyAllocH_snd]) (fun p hp => by cases hp) ha
      rw [e2, e1]

/-- The heap a projection builds is link-closed above the old length. -/
theorem linksAbove_deepCopyFuncH (fuel : Nat) (h : Heap) (rootA : Nat)
    (sel : Nat → Bool) :
    LinksAbove h.length (deepCopyFuncH fuel h rootA sel).1 := by
  have hla1 : LinksAbove h.length (copyAllocH h rootA).1 :=
    linksAbove_copyAllocH h.length h rootA (linksAbove_init h)
  unfold deepCopyFuncH
  cases hx : (copyAllocH h rootA).1[rootA]? with
  | none => simp only [hx]; exact hla1
  | some rn =>
      simp only [hx]
      exact linksAbove_recH fuel sel rn.firstChild (copyAllocH h rootA).2 none
        (copyAllocH h rootA).1 h.length (length_le_copyAllocH h rootA)
        (by rw [copyAllocH_snd]) (fun p hp => by cases hp) hla1

/-- C9: projections share no mutable state with the source tree. Building
a projection (a) leaves every pre-existing heap cell — the source document
and any projection built earlier — byte-for-byte unchanged; (b) returns a
root in the fresh region, (c) every node reachable from that root lives in
the fresh region; and (d) overwriting any reachable node of the projection
afterwards (text data, attribute values, …) still leaves every
pre-existing cell unchanged. -/
theorem projection_shares_no_mutable_state :
    ∀ (fuel : Nat) (h : Heap) (rootA : Nat) (sel : Nat → Bool),
      (∀ a, a < h.length → (deepCopyFuncH fuel h rootA sel).1[a]? = h[a]?) ∧
      h.length ≤ (deepCopyFuncH fuel h rootA sel).2 ∧
      (∀ b, Reaches (deepCopyFuncH fuel h rootA sel).1
          (deepCopyFuncH fuel h rootA sel).2 b → h.length ≤ b) ∧
      (∀ b node a, Reaches (deepCopyFuncH fuel h rootA sel).1
            (deepCopyFuncH fuel h rootA sel).2 b → a < h.length →
          ((deepCopyFuncH fuel h rootA sel).1.set b node)[a]? = h[a]?) := by
  intro fuel h rootA sel
  have hsnd := deepCopyFuncH_snd fuel h rootA sel
  have hreach : ∀ b, Reaches (deepCopyFuncH fuel h rootA sel).1
      (deepCopyFuncH fuel h rootA sel).2 b → h.length ≤ b := by
    intro b hb
    exact reaches_ge h.length _ (linksAbove_deepCopyFuncH fuel h rootA sel) _ b
      (by omega) hb
  refine ⟨getElem?_deepCopyFuncH_lt fuel h rootA sel, by omega, hreach, ?_⟩
  intro b node a hb ha
  have hbge : h.length ≤ b := hreach b hb
  rw [List.getElem?_set_ne (by omega)]
  exact getElem?_deepCopyFuncH_lt fuel h rootA sel a ha

/-- C9 witness: in a one-node heap, copy the root (with fuel to spare),
then overwrite the projection root; the source cell at address 0 reads
back unchanged. -/
theorem projection_shares_no_mutable_state_witness :
    (0 : Nat) < c9Heap.length ∧
    ((deepCopyFuncH 2 c9Heap 0 (fun _ => true)).1.set
        (deepCopyFuncH 2 c9Heap 0 (fun _ => true)).2 c9Mutation)[0]? = c9Heap[0]? :=
  ⟨by decide,
   (projection_shares_no_mutable_state 2 c9Heap 0 (fun _ => true)).2.2.2
     (deepCopyFuncH 2 c9Heap 0 (fun _ => true)).2 c9Mutation 0
     (Reaches.refl _) (by decide)⟩

end GoAnki
